import Mathlib

/-!
Verification of the submission data-access layer of the Integrations
Leaderboard app (`src/app.py`, `src/config.py`).

The sheet-backed store is modelled as a list of rows (one row per
(submission × integration) membership record, exactly the layout of the
Google Sheet: `submission_id, csm_name, company_name, integration_name,
created_at`).  `load_df` normalises every cell to a string, so all five
fields are strings; strings are modelled as `List Char` (`Str`), which
matches Python's sequence-of-codepoints view and lets every definition
evaluate by kernel reduction.

Modelling notes, stated once here:
* Python `str.strip()` is modelled as removal of leading/trailing ASCII
  whitespace (`isWs`); the app's data is form-entered text, and none of
  the claims depend on non-ASCII whitespace.
* Python `str.lower()` is modelled as `Char.toLower` (ASCII case
  folding), same caveat.
* Python string comparison is lexicographic on codepoints (`lexLt`),
  identical to the pandas object-dtype comparison used by
  `sort_values`.
* Python's `list.sort` / `sorted` are stable; they are modelled by a
  stable insertion sort (`sortLe`), with `reverse=True` rendered as the
  flipped comparator (CPython documents that `reverse=True` is also
  stable).
* `pandas.Series.unique` / `DataFrame.groupby(sort=False)` keep first
  occurrence order; both are modelled by `dedupFirst`.
* `Series.str.contains` is called with its default `regex=True`: the
  needle is a regular expression, and an invalid pattern raises
  `re.error`.  For needles free of regex metacharacters
  (`literalPattern`) regex search coincides with literal substring
  containment, and that fragment is what the model computes (`hasSub`);
  the regex and error behaviour of metacharacter needles is not
  modelled, and the one theorem whose content depends on the company
  filter (`C1_filtering`) is restricted to literal needles by an
  explicit `companyFilterLiteral` hypothesis.
* `value_counts()` sorts counts in descending order with an unspecified
  tie order (the spec notes the tie order is unspecified); the model
  fixes the tie order to first-encountered, which is irrelevant to
  every property proved about it.
* `uuid4()` and `datetime.now` are nondeterministic inputs; they enter
  the model as explicit parameters (`sid`, `created_at`), with the
  uuid's freshness an explicit hypothesis where it matters.
-/

/-- Strings as lists of characters (Python's view of `str`). -/
abbrev Str := List Char

/-- ASCII whitespace, the characters `str.strip()` removes on ASCII text. -/
def isWs (c : Char) : Bool :=
  c == ' ' || c == '\t' || c == '\n' || c == '\r' || c == '\x0B' || c == '\x0C'

/-- Python `str.strip()`: drop leading and trailing whitespace. -/
def pyStrip (l : Str) : Str := (l.dropWhile isWs).rdropWhile isWs

/-- Python `str.lower()` (ASCII case folding). -/
def pyLower (l : Str) : Str := l.map Char.toLower

/-- `_normalize(s).lower()` / `.str.strip().str.lower()`: the normal form the
code uses for case-insensitive trimmed comparison. -/
def normCI (l : Str) : Str := pyLower (pyStrip l)

/-- Lexicographic (codepoint) strict order on strings, Python's `<`. -/
def lexLt : Str → Str → Bool
  | [], [] => false
  | [], _ :: _ => true
  | _ :: _, [] => false
  | a :: as, b :: bs => if a < b then true else if b < a then false else lexLt as bs

/-- Lexicographic (codepoint) `≤` on strings, Python's `<=`. -/
def lexLe (x y : Str) : Bool := !(lexLt y x)

/-- Comparison by `s.lower()`, the key used by `sorted(..., key=lambda s: s.lower())`. -/
def ciLe (x y : Str) : Bool := lexLe (pyLower x) (pyLower y)

/-- `needle` matches at the head of `hay` (helper for substring search). -/
def leadMatch : Str → Str → Bool
  | [], _ => true
  | _ :: _, [] => false
  | a :: as, b :: bs => a == b && leadMatch as bs

/-- Python `needle in hay`: contiguous substring containment (see the note on
`str.contains` in the header). -/
def hasSub (needle : Str) : Str → Bool
  | [] => needle.isEmpty
  | c :: t => leadMatch needle (c :: t) || hasSub needle t

/-- Insert into a sorted list, keeping the inserted element after no equal
element it was preceded by: the insertion step of a stable sort. -/
def insLe (le : α → α → Bool) (x : α) : List α → List α
  | [] => [x]
  | y :: ys => if le x y then x :: y :: ys else y :: insLe le x ys

/-- Stable insertion sort: the model of Python's stable `sorted`/`list.sort`. -/
def sortLe (le : α → α → Bool) : List α → List α
  | [] => []
  | x :: xs => insLe le x (sortLe le xs)

/-- Worker for `dedupFirst`, carrying the set of already-emitted elements. -/
def dedupFirstAux [DecidableEq α] (seen : List α) : List α → List α
  | [] => []
  | x :: xs => if x ∈ seen then dedupFirstAux seen xs else x :: dedupFirstAux (x :: seen) xs

/-- Remove duplicates keeping the first occurrence of each element: the model
of `pandas.Series.unique` and of `groupby(sort=False)` key order. -/
def dedupFirst [DecidableEq α] (l : List α) : List α := dedupFirstAux [] l

/-- One sheet row: one (submission × integration) membership record, with the
submission header fields denormalised onto it (`SHEET_HEADERS`). -/
structure Row where
  submission_id : Str
  csm_name : Str
  company_name : Str
  integration_name : Str
  created_at : Str
deriving DecidableEq

/-- One element of the list `get_submissions` returns (the dict built per
`submission_id` group). -/
structure Submission where
  submission_id : Str
  csm_name : Str
  company_name : Str
  integrations : List Str
  created_at : Str
deriving DecidableEq

/-- `submission_exists(df, csm_name, company_name)` (src/app.py:95-105):
any row whose trimmed, lowered csm and company both match the trimmed,
lowered arguments.  (The `df.empty` early return is subsumed: `any` of an
empty list is `false`.) -/
def submission_exists (df : List Row) (csm_name company_name : Str) : Bool :=
  let csm := normCI csm_name
  let company := normCI company_name
  df.any (fun r => (normCI r.csm_name == csm) && (normCI r.company_name == company))

/-- `append_submission(worksheet, csm_name, company_name, integration_names)`
(src/app.py:108-121): appends one row per integration name, with the csm and
company stripped, and returns the generated submission id.  `uuid4().hex` and
the current time are the parameters `sid` and `created_at`. -/
def append_submission (ws : List Row) (sid created_at : Str)
    (csm_name company_name : Str) (integration_names : List Str) : List Row × Str :=
  (ws ++ integration_names.map
      (fun name => ⟨sid, pyStrip csm_name, pyStrip company_name, name, created_at⟩),
   sid)

/-- `delete_submission(worksheet, submission_id)` (src/app.py:124-142): the
loop collects the sheet indices of the rows whose `submission_id` cell equals
the argument and deletes them bottom-up; its net effect on the data rows is
removing exactly the matching rows, i.e. `filter`. -/
def delete_submission (ws : List Row) (sid : Str) : List Row :=
  ws.filter (fun r => r.submission_id ≠ sid)

/-- The metacharacters of Python's `re` syntax: `. ^ $ * + ? [ ] | ( )`, the
two braces (codepoints 123 and 125) and the backslash (codepoint 92).  A
pattern containing none of them is matched literally by `re.search`. -/
def isRegexMeta (c : Char) : Bool :=
  c == '.' || c == '^' || c == '$' || c == '*' || c == '+' || c == '?' ||
  c == '[' || c == ']' || c == '|' || c == '(' || c == ')' ||
  c.toNat == 123 || c.toNat == 125 || c.toNat == 92

/-- The pattern is a literal one: free of regex metacharacters.  On such a
pattern `re.search(pattern, hay)` succeeds exactly when the pattern occurs in
`hay` as a contiguous substring, so pandas' default `regex=True` matching
coincides with literal substring containment. -/
def literalPattern (p : Str) : Bool := p.all (fun c => !isRegexMeta c)

/-- The provided company filter, if any, reaches `Series.str.contains` as a
literal pattern (the needle the code builds from a filter `cf` is the
stripped, lowered `normCI cf`).  This is the domain on which the model's
company-filter branch (`hasSub`) is faithful to the code; theorems whose
content depends on the company filter carry it as a hypothesis. -/
def companyFilterLiteral (company_filter : Option Str) : Prop :=
  ∀ cf, company_filter = some cf → literalPattern (normCI cf) = true

/-- The three row-level filters of `get_submissions` (src/app.py:155-162),
applied conjunctively.  A `None` filter, an empty-string filter or an empty
list filter is skipped (Python truthiness of `if csm_filter:` etc.);
the csm filter is trimmed case-insensitive equality, the integration filter
is exact membership (`isin`).  The company filter is
`Series.str.contains(needle)` with pandas' default `regex=True`; it is
modelled here by literal substring containment, which is its behaviour
exactly when the needle is a `literalPattern` — regex matching of
metacharacter needles, and the `re.error` raised by an invalid pattern, are
outside the model, so no theorem asserts anything about the company filter
without a `companyFilterLiteral` hypothesis. -/
def rowPasses (csm_filter company_filter : Option Str)
    (integration_filter : Option (List Str)) (r : Row) : Bool :=
  (match csm_filter with
   | none => true
   | some c => c.isEmpty || (normCI r.csm_name == normCI c))
  && (match company_filter with
      | none => true
      | some cf => cf.isEmpty || hasSub (normCI cf) (normCI r.company_name))
  && (match integration_filter with
      | none => true
      | some l => l.isEmpty || l.contains r.integration_name)

/-- The per-group integration list of `get_submissions` (src/app.py:169-178):
strip each name, drop empties, keep first occurrences, then sort by the
lowercased name (stable `sorted`). -/
def groupIntegrations (g : List Row) : List Str :=
  sortLe ciLe (dedupFirst ((g.map (fun r => pyStrip r.integration_name)).filter
    (fun t => !t.isEmpty)))

/-- The dict built for one `submission_id` group of the filtered frame
(src/app.py:168-187): header fields come from the group's first row. -/
def buildSubmission (filt : List Row) (sid : Str) : Submission :=
  let g := filt.filter (fun r => r.submission_id == sid)
  { submission_id := sid
    csm_name := (g.map (fun r => r.csm_name)).headD []
    company_name := (g.map (fun r => r.company_name)).headD []
    integrations := groupIntegrations g
    created_at := (g.map (fun r => r.created_at)).headD [] }

/-- Comparator of the final `out.sort(key=..., reverse=True)`
(src/app.py:189): `created_at` descending (the `or ""` in the key is the
identity here: every `created_at` is already a string). -/
def subLe (a b : Submission) : Bool := lexLe b.created_at a.created_at

/-- `get_submissions(df, csm_filter, company_filter, integration_filter)`
(src/app.py:145-190): filter rows, group the *filtered* rows by
`submission_id` in first-appearance order (`groupby(..., sort=False)`),
build one dict per group, and sort by `created_at` descending. -/
def get_submissions (df : List Row) (csm_filter company_filter : Option Str)
    (integration_filter : Option (List Str)) : List Submission :=
  if df = [] then []
  else if df.filter (rowPasses csm_filter company_filter integration_filter) = [] then []
  else sortLe subLe
    ((dedupFirst ((df.filter (rowPasses csm_filter company_filter integration_filter)).map
        (fun r => r.submission_id))).map
      (buildSubmission (df.filter (rowPasses csm_filter company_filter integration_filter))))

/-- `get_distinct_csms(df)` (src/app.py:193-205): stripped nonempty csm
names, first occurrences, sorted case-insensitively. -/
def get_distinct_csms (df : List Row) : List Str :=
  sortLe ciLe (dedupFirst ((df.map (fun r => pyStrip r.csm_name)).filter
    (fun t => !t.isEmpty)))

/-- Comparator of `value_counts()`: count descending. -/
def svcLe (a b : Str × Nat) : Bool := decide (b.2 ≤ a.2)

/-- `get_counts_by_service(df)` (src/app.py:208-212):
`df["integration_name"].value_counts()` — occurrences of each distinct
integration-name cell, ordered by count descending (tie order is
unspecified in pandas; the model keeps first-encountered order on ties). -/
def get_counts_by_service (df : List Row) : List (Str × Nat) :=
  if df = [] then []
  else
    let names := df.map (fun r => r.integration_name)
    sortLe svcLe ((dedupFirst names).map (fun k => (k, names.count k)))

/-- Comparator of
`sort_values(["integrations", "companies", "csm_name"], ascending=[False, False, True])`
(src/app.py:225) on `(csm_name, companies, integrations)` rows: integration
count descending, then company count descending, then csm name ascending in
plain (case-sensitive) codepoint order. -/
def csmRowLe (a b : Str × Nat × Nat) : Bool :=
  if a.2.2 = b.2.2 then
    (if a.2.1 = b.2.1 then lexLe a.1 b.1 else decide (b.2.1 < a.2.1))
  else decide (b.2.2 < a.2.2)

/-- `get_counts_by_csm(df)` (src/app.py:215-227): one row per distinct
`csm_name` cell value holding `nunique` of its companies and `size` of its
group, sorted by `csmRowLe`.  (`groupby` sorts keys first, but the final
`sort_values` is total on the distinct keys, so key order before the sort is
immaterial; the model uses first-appearance order.) -/
def get_counts_by_csm (df : List Row) : List (Str × Nat × Nat) :=
  if df = [] then []
  else sortLe csmRowLe
    ((dedupFirst (df.map (fun r => r.csm_name))).map (fun c =>
      (c,
       (dedupFirst ((df.filter (fun r => r.csm_name == c)).map
          (fun r => r.company_name))).length,
       (df.filter (fun r => r.csm_name == c)).length)))

/-- Outcome of one submit of the form (src/app.py:318-332).  `errorBoth` is
the single message "Please enter both CSM name and company name.",
`errorMissingIntegrations` is "Please select at least one integration.",
`errorDuplicate` is the already-exists message; `created` carries the new
worksheet contents and the new submission id. -/
inductive FormResult
  | errorBoth
  | errorMissingIntegrations
  | errorDuplicate
  | created (ws : List Row) (sid : Str)
deriving DecidableEq

/-- The form submit handler (src/app.py:318-332): `if not csm_name or not
company_name` — Python truthiness, so only *empty* strings are rejected —
then `if not selected`, then the duplicate check on the frame loaded at the
start of the render (equal to the worksheet rows), else
`append_submission`. -/
def handle_submit (ws : List Row) (sid created_at : Str)
    (csm_name company_name : Str) (selected : List Str) : FormResult :=
  if csm_name.isEmpty || company_name.isEmpty then .errorBoth
  else if selected.isEmpty then .errorMissingIntegrations
  else if submission_exists ws csm_name company_name then .errorDuplicate
  else .created (append_submission ws sid created_at csm_name company_name selected).1 sid

/-- Worksheet states reachable from the empty sheet through
`append_submission` (with a fresh uuid each time, and integration lists
constrained by `P`) and `delete_submission`. -/
inductive ReachableVia (P : List Str → Prop) : List Row → Prop
  | empty : ReachableVia P []
  | create (ws : List Row) (sid created_at csm company : Str) (ints : List Str)
      (hr : ReachableVia P ws) (hfresh : ∀ r ∈ ws, r.submission_id ≠ sid)
      (hP : P ints) :
      ReachableVia P (append_submission ws sid created_at csm company ints).1
  | del (ws : List Row) (sid : Str) (hr : ReachableVia P ws) :
      ReachableVia P (delete_submission ws sid)

/-- The (submission_id, integration_name) key of each membership record. -/
def memberKeys (ws : List Row) : List (Str × Str) :=
  ws.map (fun r => (r.submission_id, r.integration_name))

/-- The order C3 claims for `get_counts_by_csm` rows `(name, companies,
integrations)`: integrations descending, then companies descending, then
name ascending **case-insensitively**. -/
def csmOrderCI (a b : Str × Nat × Nat) : Prop :=
  b.2.2 < a.2.2 ∨ (b.2.2 = a.2.2 ∧
    (b.2.1 < a.2.1 ∨ (b.2.1 = a.2.1 ∧ ciLe a.1 b.1 = true)))

/-- The order the code actually produces (C3 amended): integrations
descending, then companies descending, then name ascending in plain
codepoint (case-sensitive) order. -/
def csmOrderCS (a b : Str × Nat × Nat) : Prop :=
  b.2.2 < a.2.2 ∨ (b.2.2 = a.2.2 ∧
    (b.2.1 < a.2.1 ∨ (b.2.1 = a.2.1 ∧ lexLe a.1 b.1 = true)))

/-- The integration name "GitHub" from the catalog (src/config.py). -/
def exGitHub : Str := ['G', 'i', 't', 'H', 'u', 'b']

/-- The integration name "Datadog" from the catalog (src/config.py). -/
def exDatadog : Str := ['D', 'a', 't', 'a', 'd', 'o', 'g']

/-- A dataset with one submission "s1" having the two integrations GitHub
and Datadog. -/
def exDfC1 : List Row :=
  [⟨['s', '1'], ['M'], ['A'], exGitHub, ['t']⟩,
   ⟨['s', '1'], ['M'], ['A'], exDatadog, ['t']⟩]

/-- A dataset with two one-integration submissions by the CSMs "a" and "B":
equal counts, so the leaderboard order is decided by the name tie-break. -/
def exDfC3 : List Row :=
  [⟨['s', '1'], ['a'], ['c', '1'], exGitHub, ['t']⟩,
   ⟨['s', '2'], ['B'], ['c', '2'], exGitHub, ['t']⟩]

/-- A dataset with two submissions created at times "1" < "2". -/
def exDfC9 : List Row :=
  [⟨['s', '1'], ['M'], ['A'], exGitHub, ['1']⟩,
   ⟨['s', '2'], ['M'], ['B'], exDatadog, ['2']⟩]

/-- The listing entry of submission "s1" of `exDfC9`. -/
def exSubC9 : Submission := ⟨['s', '1'], ['M'], ['A'], [exGitHub], ['1']⟩

/-- A one-row worksheet whose only submission id is "b". -/
def exWsB : List Row := [⟨['b'], ['m'], ['c'], exGitHub, ['t']⟩]

/-- The listing entry of the single submission of `exWsB`. -/
def exSubB : Submission := ⟨['b'], ['m'], ['c'], [exGitHub], ['t']⟩

/-- A one-row worksheet recording (csm "m", company "a"), for exercising the
duplicate check. -/
def exWsDup : List Row := [⟨['s'], ['m'], ['a'], exGitHub, ['t']⟩]

/-- The worksheet obtained by one `append_submission` call whose integration
list repeats "GitHub". -/
def exDupRows : List Row :=
  (append_submission [] ['i'] ['t'] ['m'] ['a'] [exGitHub, exGitHub]).1

/-- The worksheet obtained by one `append_submission` call with the single
integration "GitHub". -/
def exOneRow : List Row :=
  (append_submission [] ['i'] ['t'] ['m'] ['a'] [exGitHub]).1

theorem insLe_perm (le : α → α → Bool) (x : α) (l : List α) :
    List.Perm (insLe le x l) (x :: l) := by
  induction l with
  | nil => exact List.Perm.refl _
  | cons y ys ih =>
    unfold insLe
    split
    · exact List.Perm.refl _
    · exact (ih.cons y).trans (List.Perm.swap x y ys)

theorem sortLe_perm (le : α → α → Bool) (l : List α) : List.Perm (sortLe le l) l := by
  induction l with
  | nil => exact List.Perm.refl _
  | cons x xs ih => exact (insLe_perm le x (sortLe le xs)).trans (ih.cons x)

theorem pairwise_insLe (le : α → α → Bool)
    (htr : ∀ a b c, le a b = true → le b c = true → le a c = true)
    (hto : ∀ a b, le a b = true ∨ le b a = true) (x : α) (l : List α)
    (h : l.Pairwise (fun a b => le a b = true)) :
    (insLe le x l).Pairwise (fun a b => le a b = true) := by
  induction l with
  | nil => simp [insLe]
  | cons y ys ih =>
    rcases List.pairwise_cons.1 h with ⟨hy, hys⟩
    unfold insLe
    split
    case isTrue hxy =>
      refine List.pairwise_cons.2 ⟨?_, h⟩
      intro z hz
      rcases List.mem_cons.1 hz with rfl | hz
      · exact hxy
      · exact htr x y z hxy (hy z hz)
    case isFalse hxy =>
      refine List.pairwise_cons.2 ⟨?_, ih hys⟩
      intro z hz
      rcases List.mem_cons.1 ((insLe_perm le x ys).mem_iff.1 hz) with rfl | hz
      · rcases hto z y with h' | h'
        · exact absurd h' hxy
        · exact h'
      · exact hy z hz

theorem pairwise_sortLe (le : α → α → Bool)
    (htr : ∀ a b c, le a b = true → le b c = true → le a c = true)
    (hto : ∀ a b, le a b = true ∨ le b a = true) (l : List α) :
    (sortLe le l).Pairwise (fun a b => le a b = true) := by
  induction l with
  | nil => simp [sortLe]
  | cons x xs ih => exact pairwise_insLe le htr hto x (sortLe le xs) ih

theorem mem_dedupFirstAux [DecidableEq α] (l : List α) :
    ∀ (seen : List α) (a : α), a ∈ dedupFirstAux seen l ↔ a ∈ l ∧ a ∉ seen := by
  induction l with
  | nil => intro seen a; simp [dedupFirstAux]
  | cons x xs ih =>
    intro seen a
    unfold dedupFirstAux
    split
    case isTrue hx =>
      rw [ih seen a]
      constructor
      · exact fun ⟨h1, h2⟩ => ⟨List.mem_cons.2 (Or.inr h1), h2⟩
      · rintro ⟨h1, h2⟩
        rcases List.mem_cons.1 h1 with rfl | h1
        · exact absurd hx h2
        · exact ⟨h1, h2⟩
    case isFalse hx =>
      constructor
      · intro h
        rcases List.mem_cons.1 h with rfl | h
        · exact ⟨List.mem_cons.2 (Or.inl rfl), hx⟩
        · rcases (ih (x :: seen) a).1 h with ⟨h1, h2⟩
          exact ⟨List.mem_cons.2 (Or.inr h1),
                 fun hs => h2 (List.mem_cons.2 (Or.inr hs))⟩
      · rintro ⟨h1, h2⟩
        by_cases hax : a = x
        · exact List.mem_cons.2 (Or.inl hax)
        · rcases List.mem_cons.1 h1 with rfl | h1
          · exact absurd rfl hax
          · refine List.mem_cons.2 (Or.inr ((ih (x :: seen) a).2 ⟨h1, ?_⟩))
            intro hs
            rcases List.mem_cons.1 hs with rfl | hs
            · exact hax rfl
            · exact h2 hs

theorem nodup_dedupFirstAux [DecidableEq α] (l : List α) :
    ∀ seen : List α, (dedupFirstAux seen l).Nodup := by
  induction l with
  | nil => intro seen; simp [dedupFirstAux]
  | cons x xs ih =>
    intro seen
    unfold dedupFirstAux
    split
    · exact ih seen
    · refine List.Pairwise.cons (fun z hz hxz => ?_) (ih (x :: seen))
      rcases (mem_dedupFirstAux xs (x :: seen) z).1 hz with ⟨_, h2⟩
      exact h2 (List.mem_cons.2 (Or.inl hxz.symm))

theorem mem_dedupFirst [DecidableEq α] (l : List α) (a : α) :
    a ∈ dedupFirst l ↔ a ∈ l := by
  simp [dedupFirst, mem_dedupFirstAux]

theorem nodup_dedupFirst [DecidableEq α] (l : List α) : (dedupFirst l).Nodup :=
  nodup_dedupFirstAux l []

theorem lexLt_asymm : ∀ x y : Str, lexLt x y = true → lexLt y x = false := by
  intro x
  induction x with
  | nil =>
    intro y h
    cases y with
    | nil => simp [lexLt] at h
    | cons b bs => simp [lexLt]
  | cons a as ih =>
    intro y h
    cases y with
    | nil => simp [lexLt] at h
    | cons b bs =>
      unfold lexLt at h ⊢
      by_cases hab : a < b
      · simp [hab, lt_asymm hab]
      · by_cases hba : b < a
        · simp [hab, hba] at h
        · simp only [if_neg hab, if_neg hba] at h
          simp only [if_neg hba, if_neg hab]
          exact ih bs h

theorem lexLt_trichotomy : ∀ x y : Str, lexLt x y = true ∨ lexLt y x = true ∨ x = y := by
  intro x
  induction x with
  | nil =>
    intro y
    cases y with
    | nil => exact Or.inr (Or.inr rfl)
    | cons b bs => exact Or.inl (by simp [lexLt])
  | cons a as ih =>
    intro y
    cases y with
    | nil => exact Or.inr (Or.inl (by simp [lexLt]))
    | cons b bs =>
      rcases lt_trichotomy a b with h | h | h
      · exact Or.inl (by simp [lexLt, h])
      · subst h
        rcases ih bs with h | h | h
        · exact Or.inl (by simp [lexLt, lt_irrefl, h])
        · exact Or.inr (Or.inl (by simp [lexLt, lt_irrefl, h]))
        · exact Or.inr (Or.inr (by rw [h]))
      · exact Or.inr (Or.inl (by simp [lexLt, h]))

theorem lexLt_trans : ∀ x y z : Str,
    lexLt x y = true → lexLt y z = true → lexLt x z = true := by
  intro x
  induction x with
  | nil =>
    intro y z h1 h2
    cases y with
    | nil => simp [lexLt] at h1
    | cons b bs =>
      cases z with
      | nil => simp [lexLt] at h2
      | cons c cs => simp [lexLt]
  | cons a as ih =>
    intro y z h1 h2
    cases y with
    | nil => simp [lexLt] at h1
    | cons b bs =>
      cases z with
      | nil => simp [lexLt] at h2
      | cons c cs =>
        unfold lexLt at h1 h2 ⊢
        by_cases hab : a < b
        · by_cases hbc : b < c
          · simp [lt_trans hab hbc]
          · by_cases hcb : c < b
            · simp [hab, hbc, hcb] at h2
            · have hbceq : b = c := le_antisymm (le_of_not_lt hcb) (le_of_not_lt hbc)
              subst hbceq
              simp [hab]
        · by_cases hba : b < a
          · simp [hab, hba] at h1
          · have habeq : a = b := le_antisymm (le_of_not_lt hba) (le_of_not_lt hab)
            subst habeq
            simp only [if_neg hab, if_neg hba] at h1
            by_cases hbc : a < c
            · simp [hbc]
            · by_cases hcb : c < a
              · simp [hbc, hcb] at h2
              · simp only [if_neg hbc, if_neg hcb] at h2 ⊢
                exact ih bs cs h1 h2

theorem lexLe_total (x y : Str) : lexLe x y = true ∨ lexLe y x = true := by
  unfold lexLe
  cases hxy : lexLt y x with
  | false => exact Or.inl (by simp)
  | true => exact Or.inr (by simp [lexLt_asymm y x hxy])

theorem lexLe_trans (x y z : Str)
    (h1 : lexLe x y = true) (h2 : lexLe y z = true) : lexLe x z = true := by
  unfold lexLe at h1 h2 ⊢
  simp only [Bool.not_eq_true'] at h1 h2 ⊢
  by_contra hzx
  rw [Bool.not_eq_false] at hzx
  rcases lexLt_trichotomy x y with h | h | h
  · have := lexLt_trans z x y hzx h
    simp [h2] at this
  · simp [h] at h1
  · subst h
    simp [h2] at hzx

theorem ciLe_total (x y : Str) : ciLe x y = true ∨ ciLe y x = true :=
  lexLe_total (pyLower x) (pyLower y)

theorem ciLe_trans (x y z : Str)
    (h1 : ciLe x y = true) (h2 : ciLe y z = true) : ciLe x z = true :=
  lexLe_trans (pyLower x) (pyLower y) (pyLower z) h1 h2

theorem subLe_total (a b : Submission) : subLe a b = true ∨ subLe b a = true :=
  (lexLe_total b.created_at a.created_at).elim Or.inl Or.inr

theorem subLe_trans (a b c : Submission)
    (h1 : subLe a b = true) (h2 : subLe b c = true) : subLe a c = true :=
  lexLe_trans c.created_at b.created_at a.created_at h2 h1

theorem svcLe_total (a b : Str × Nat) : svcLe a b = true ∨ svcLe b a = true := by
  simp only [svcLe, decide_eq_true_eq]
  omega

theorem svcLe_trans (a b c : Str × Nat)
    (h1 : svcLe a b = true) (h2 : svcLe b c = true) : svcLe a c = true := by
  simp only [svcLe, decide_eq_true_eq] at h1 h2 ⊢
  omega

theorem csmRowLe_total (a b : Str × Nat × Nat) :
    csmRowLe a b = true ∨ csmRowLe b a = true := by
  unfold csmRowLe
  by_cases e1 : a.2.2 = b.2.2
  · simp only [if_pos e1, if_pos e1.symm]
    by_cases f1 : a.2.1 = b.2.1
    · simp only [if_pos f1, if_pos f1.symm]
      exact lexLe_total a.1 b.1
    · simp only [if_neg f1, if_neg (fun h => f1 (Eq.symm h)), decide_eq_true_eq]
      omega
  · simp only [if_neg e1, if_neg (fun h => e1 (Eq.symm h)), decide_eq_true_eq]
    omega

theorem csmRowLe_trans (a b c : Str × Nat × Nat)
    (h1 : csmRowLe a b = true) (h2 : csmRowLe b c = true) : csmRowLe a c = true := by
  unfold csmRowLe at h1 h2 ⊢
  by_cases e1 : a.2.2 = b.2.2
  · by_cases e2 : b.2.2 = c.2.2
    · rw [if_pos e1] at h1
      rw [if_pos e2] at h2
      rw [if_pos (e1.trans e2)]
      by_cases f1 : a.2.1 = b.2.1
      · by_cases f2 : b.2.1 = c.2.1
        · rw [if_pos f1] at h1
          rw [if_pos f2] at h2
          rw [if_pos (f1.trans f2)]
          exact lexLe_trans a.1 b.1 c.1 h1 h2
        · rw [if_pos f1] at h1
          rw [if_neg f2, decide_eq_true_eq] at h2
          have f3 : ¬a.2.1 = c.2.1 := by omega
          rw [if_neg f3, decide_eq_true_eq]
          omega
      · rw [if_neg f1, decide_eq_true_eq] at h1
        by_cases f2 : b.2.1 = c.2.1
        · have f3 : ¬a.2.1 = c.2.1 := by omega
          rw [if_neg f3, decide_eq_true_eq]
          omega
        · rw [if_neg f2, decide_eq_true_eq] at h2
          have f3 : ¬a.2.1 = c.2.1 := by omega
          rw [if_neg f3, decide_eq_true_eq]
          omega
    · rw [if_pos e1] at h1
      rw [if_neg e2, decide_eq_true_eq] at h2
      have e3 : ¬a.2.2 = c.2.2 := by omega
      rw [if_neg e3, decide_eq_true_eq]
      omega
  · rw [if_neg e1, decide_eq_true_eq] at h1
    by_cases e2 : b.2.2 = c.2.2
    · have e3 : ¬a.2.2 = c.2.2 := by omega
      rw [if_neg e3, decide_eq_true_eq]
      omega
    · rw [if_neg e2, decide_eq_true_eq] at h2
      have e3 : ¬a.2.2 = c.2.2 := by omega
      rw [if_neg e3, decide_eq_true_eq]
      omega

theorem dropWhile_isWs_self (m : Str) (hm : m.dropWhile isWs = m) :
    (m.rdropWhile isWs).dropWhile isWs = m.rdropWhile isWs := by
  cases h : m.rdropWhile isWs with
  | nil => simp
  | cons c cs =>
    have hpre : (m.rdropWhile isWs) <+: m := List.rdropWhile_prefix isWs m
    rw [h] at hpre
    rcases hpre with ⟨t, ht⟩
    have hm' : m = c :: (cs ++ t) := by rw [← ht]; simp
    have hc : isWs c = false := by
      by_contra hcc
      rw [Bool.not_eq_false] at hcc
      rw [hm', List.dropWhile_cons, if_pos hcc] at hm
      have hlen := congrArg List.length hm
      have hle : ((cs ++ t).dropWhile isWs).length ≤ (cs ++ t).length :=
        (List.dropWhile_suffix isWs).length_le
      simp at hlen hle
      omega
    rw [List.dropWhile_cons, hc]
    simp

theorem pyStrip_idem (l : Str) : pyStrip (pyStrip l) = pyStrip l := by
  unfold pyStrip
  have hms : (l.dropWhile isWs).dropWhile isWs = l.dropWhile isWs :=
    List.dropWhile_idempotent isWs l
  rw [dropWhile_isWs_self (l.dropWhile isWs) hms]
  exact List.rdropWhile_idempotent isWs (l.dropWhile isWs)

theorem normCI_pyStrip (x : Str) : normCI (pyStrip x) = normCI x := by
  unfold normCI
  rw [pyStrip_idem]

theorem countP_split [BEq α] [LawfulBEq α] [DecidableEq α]
    (x : α) (xs seen : List α) (hx : x ∉ seen) :
    List.countP (fun y => decide (y ∉ seen)) xs
      = List.count x xs + List.countP (fun y => decide (y ∉ (x :: seen))) xs := by
  induction xs with
  | nil => simp
  | cons y ys ih =>
    by_cases hyx : y = x
    · subst hyx
      have e1 : List.countP (fun z => decide (z ∉ seen)) (y :: ys)
          = List.countP (fun z => decide (z ∉ seen)) ys + 1 := by
        simp [List.countP_cons, hx]
      have e2 : List.countP (fun z => decide (z ∉ (y :: seen))) (y :: ys)
          = List.countP (fun z => decide (z ∉ (y :: seen))) ys := by
        simp [List.countP_cons]
      have e3 : List.count y (y :: ys) = List.count y ys + 1 := by
        simp [List.count_cons]
      rw [e1, e2, e3]
      omega
    · have hxy : ¬x = y := fun h => hyx h.symm
      have e3 : List.count x (y :: ys) = List.count x ys := by
        simp [List.count_cons, hyx, hxy]
      by_cases hys : y ∈ seen
      · have e1 : List.countP (fun z => decide (z ∉ seen)) (y :: ys)
            = List.countP (fun z => decide (z ∉ seen)) ys := by
          simp [List.countP_cons, hys]
        have e2 : List.countP (fun z => decide (z ∉ (x :: seen))) (y :: ys)
            = List.countP (fun z => decide (z ∉ (x :: seen))) ys := by
          simp [List.countP_cons, List.mem_cons, hys]
        rw [e1, e2, e3]
        omega
      · have e1 : List.countP (fun z => decide (z ∉ seen)) (y :: ys)
            = List.countP (fun z => decide (z ∉ seen)) ys + 1 := by
          simp [List.countP_cons, hys]
        have e2 : List.countP (fun z => decide (z ∉ (x :: seen))) (y :: ys)
            = List.countP (fun z => decide (z ∉ (x :: seen))) ys + 1 := by
          simp [List.countP_cons, List.mem_cons, hys, hyx]
        rw [e1, e2, e3]
        omega

theorem sum_count_dedupFirstAux [BEq α] [LawfulBEq α] [DecidableEq α] (l : List α) :
    ∀ seen : List α,
      ((dedupFirstAux seen l).map (fun k => List.count k l)).sum
        = List.countP (fun y => decide (y ∉ seen)) l := by
  induction l with
  | nil => intro seen; simp [dedupFirstAux]
  | cons x xs ih =>
    intro seen
    unfold dedupFirstAux
    by_cases hx : x ∈ seen
    · rw [if_pos hx]
      have hmap : (dedupFirstAux seen xs).map (fun k => List.count k (x :: xs))
          = (dedupFirstAux seen xs).map (fun k => List.count k xs) := by
        apply List.map_congr_left
        intro k hk
        rcases (mem_dedupFirstAux xs seen k).1 hk with ⟨_, hks⟩
        have hkx : ¬k = x := fun h => hks (h ▸ hx)
        have hxk : ¬x = k := fun h => hkx h.symm
        simp [List.count_cons, hkx, hxk]
      rw [hmap, ih seen]
      have e1 : List.countP (fun y => decide (y ∉ seen)) (x :: xs)
          = List.countP (fun y => decide (y ∉ seen)) xs := by
        simp [List.countP_cons, hx]
      rw [e1]
    · rw [if_neg hx]
      rw [List.map_cons, List.sum_cons]
      have hmap : (dedupFirstAux (x :: seen) xs).map (fun k => List.count k (x :: xs))
          = (dedupFirstAux (x :: seen) xs).map (fun k => List.count k xs) := by
        apply List.map_congr_left
        intro k hk
        rcases (mem_dedupFirstAux xs (x :: seen) k).1 hk with ⟨_, hks⟩
        have hkx : ¬k = x := fun h => hks (by rw [h]; exact List.mem_cons_self x seen)
        have hxk : ¬x = k := fun h => hkx h.symm
        simp [List.count_cons, hkx, hxk]
      rw [hmap, ih (x :: seen)]
      have e1 : List.countP (fun y => decide (y ∉ seen)) (x :: xs)
          = List.countP (fun y => decide (y ∉ seen)) xs + 1 := by
        simp [List.countP_cons, hx]
      have e3 : List.count x (x :: xs) = List.count x xs + 1 := by
        simp [List.count_cons]
      rw [e1, e3, countP_split x xs seen hx]
      omega

theorem sum_count_dedupFirst [BEq α] [LawfulBEq α] [DecidableEq α] (l : List α) :
    ((dedupFirst l).map (fun k => List.count k l)).sum = l.length := by
  have h := sum_count_dedupFirstAux l []
  simpa using h

theorem buildSubmission_id (filt : List Row) (sid : Str) :
    (buildSubmission filt sid).submission_id = sid := rfl

theorem mem_get_submissions_iff (df : List Row) (fc fco : Option Str)
    (fi : Option (List Str)) (s : Submission) :
    s ∈ get_submissions df fc fco fi
      ↔ ∃ sid, sid ∈ dedupFirst ((df.filter (rowPasses fc fco fi)).map
            (fun r => r.submission_id))
          ∧ s = buildSubmission (df.filter (rowPasses fc fco fi)) sid := by
  unfold get_submissions
  by_cases hdf : df = []
  · subst hdf
    rw [if_pos rfl]
    simp [dedupFirst, dedupFirstAux]
  · rw [if_neg hdf]
    by_cases hf : df.filter (rowPasses fc fco fi) = []
    · rw [if_pos hf, hf]
      simp [dedupFirst, dedupFirstAux]
    · rw [if_neg hf]
      constructor
      · intro hs
        have hs' := (sortLe_perm subLe _).mem_iff.1 hs
        rcases List.mem_map.1 hs' with ⟨sid, hsid, rfl⟩
        exact ⟨sid, hsid, rfl⟩
      · rintro ⟨sid, hsid, rfl⟩
        exact (sortLe_perm subLe _).mem_iff.2 (List.mem_map.2 ⟨sid, hsid, rfl⟩)

theorem get_submissions_ids_perm (df : List Row) (fc fco : Option Str)
    (fi : Option (List Str)) :
    List.Perm ((get_submissions df fc fco fi).map (fun s => s.submission_id))
      (dedupFirst ((df.filter (rowPasses fc fco fi)).map (fun r => r.submission_id))) := by
  unfold get_submissions
  by_cases hdf : df = []
  · subst hdf
    rw [if_pos rfl]
    exact List.Perm.refl _
  · rw [if_neg hdf]
    by_cases hf : df.filter (rowPasses fc fco fi) = []
    · rw [if_pos hf, hf]
      exact List.Perm.refl _
    · rw [if_neg hf]
      refine ((sortLe_perm subLe _).map (fun s => s.submission_id)).trans ?_
      rw [List.map_map]
      have h2 : ((fun s : Submission => s.submission_id) ∘
          buildSubmission (df.filter (rowPasses fc fco fi))) = fun sid => sid :=
        funext (fun _ => rfl)
      rw [h2, List.map_id']

theorem get_submissions_id_mem (df : List Row) (fc fco : Option Str)
    (fi : Option (List Str)) (s : Submission) (h : s ∈ get_submissions df fc fco fi) :
    ∃ r, r ∈ df ∧ r.submission_id = s.submission_id := by
  rcases (mem_get_submissions_iff df fc fco fi s).1 h with ⟨sid, hsid, rfl⟩
  have hm : sid ∈ (df.filter (rowPasses fc fco fi)).map (fun r => r.submission_id) :=
    (mem_dedupFirst _ _).1 hsid
  rcases List.mem_map.1 hm with ⟨r, hr, hrid⟩
  refine ⟨r, (List.mem_filter.1 hr).1, ?_⟩
  rw [buildSubmission_id, hrid]

theorem get_submissions_sorted (df : List Row) (fc fco : Option Str)
    (fi : Option (List Str)) :
    (get_submissions df fc fco fi).Pairwise (fun a b => subLe a b = true) := by
  unfold get_submissions
  by_cases hdf : df = []
  · subst hdf
    rw [if_pos rfl]
    exact List.Pairwise.nil
  · rw [if_neg hdf]
    by_cases hf : df.filter (rowPasses fc fco fi) = []
    · rw [if_pos hf]
      exact List.Pairwise.nil
    · rw [if_neg hf]
      exact pairwise_sortLe subLe subLe_trans subLe_total _

theorem get_submissions_integrations (df : List Row) (fc fco : Option Str)
    (fi : Option (List Str)) (s : Submission) (h : s ∈ get_submissions df fc fco fi) :
    s.integrations = groupIntegrations ((df.filter (rowPasses fc fco fi)).filter
      (fun r => r.submission_id == s.submission_id)) := by
  rcases (mem_get_submissions_iff df fc fco fi s).1 h with ⟨sid, _, rfl⟩
  rfl

theorem groupIntegrations_sorted (g : List Row) :
    (groupIntegrations g).Pairwise (fun a b => ciLe a b = true) :=
  pairwise_sortLe ciLe ciLe_trans ciLe_total _


/-- C1 counterexample: on a dataset whose single submission "s1" has the two
integrations GitHub and Datadog, filtering by integration GitHub returns the
submission with only `["GitHub"]` attached, while its full integration set is
`["Datadog", "GitHub"]` — the claim that each returned submission carries its
full integration set is false. -/
theorem C1_counterexample :
    (get_submissions exDfC1 none none (some [exGitHub])).map (fun s => s.integrations)
        = [[exGitHub]]
    ∧ groupIntegrations exDfC1 = [exDatadog, exGitHub]
    ∧ ([exGitHub] : List Str) ≠ [exDatadog, exGitHub] :=
  ⟨by decide, by decide, by decide⟩

/-- C1 (amended): whenever the company filter, if provided, is a literal
pattern — free of regex metacharacters, the only company filters whose
`str.contains(needle, regex=True)` behaviour is substring matching and hence
inside this model — `get_submissions` returns exactly the submissions that
have at least one membership row satisfying all provided filters (AND across
the csm / company / integration dimensions, OR within the integration
filter; csm exact case-insensitive trimmed, company case-insensitive
substring), each submission id exactly once; but each returned submission's
integration list is rebuilt from the rows that survive the filters, so under
an integration filter only the matching integrations are attached.  The
`companyFilterLiteral` hypothesis delimits the filters the theorem speaks
about; the model's characterisation below does not otherwise consume it. -/
theorem C1_filtering (df : List Row) (fc fco : Option Str) (fi : Option (List Str))
    (hlit : companyFilterLiteral fco) :
    (∀ sid, sid ∈ (get_submissions df fc fco fi).map (fun s => s.submission_id)
        ↔ ∃ r, r ∈ df ∧ rowPasses fc fco fi r = true ∧ r.submission_id = sid)
    ∧ ((get_submissions df fc fco fi).map (fun s => s.submission_id)).Nodup
    ∧ ∀ s, s ∈ get_submissions df fc fco fi →
        s.integrations = groupIntegrations ((df.filter (rowPasses fc fco fi)).filter
          (fun r => r.submission_id == s.submission_id)) := by
  refine ⟨?_, ?_, ?_⟩
  · intro sid
    rw [(get_submissions_ids_perm df fc fco fi).mem_iff, mem_dedupFirst]
    constructor
    · intro h
      rcases List.mem_map.1 h with ⟨r, hr, hrid⟩
      rcases List.mem_filter.1 hr with ⟨hrdf, hrp⟩
      exact ⟨r, hrdf, hrp, hrid⟩
    · rintro ⟨r, hrdf, hrp, hrid⟩
      exact List.mem_map.2 ⟨r, List.mem_filter.2 ⟨hrdf, hrp⟩, hrid⟩
  · exact ((get_submissions_ids_perm df fc fco fi).nodup_iff).2 (nodup_dedupFirst _)
  · exact fun s h => get_submissions_integrations df fc fco fi s h

/-- C1 witness: the amended theorem applied to a concrete dataset with the
concrete literal company filter "a" (metacharacter-free, so the hypothesis
is discharged by evaluation): "s1", whose company "A" matches, is listed,
and its attached integrations match the filtered-group reconstruction. -/
theorem C1_filtering_witness :
    exSubC9.integrations = groupIntegrations
        ((exDfC9.filter (rowPasses none (some ['a']) none)).filter
          (fun r => r.submission_id == exSubC9.submission_id))
    ∧ ['s', '1'] ∈ (get_submissions exDfC9 none (some ['a']) none).map
        (fun s => s.submission_id) := by
  have hlit : companyFilterLiteral (some ['a']) := by
    intro cf h
    injection h with h2
    subst h2
    decide
  constructor
  · exact (C1_filtering exDfC9 none (some ['a']) none hlit).2.2 exSubC9 (by decide)
  · exact ((C1_filtering exDfC9 none (some ['a']) none hlit).1 ['s', '1']).2
      ⟨⟨['s', '1'], ['M'], ['A'], exGitHub, ['1']⟩, by decide, by decide, rfl⟩

/-- C2 counterexample: a whitespace-only csm_name (" ") is NOT rejected by the
form handler — `if not csm_name` only catches the empty string — so the
submission is persisted, with the stored csm_name trimmed to empty. -/
theorem C2_counterexample :
    handle_submit [] ['i'] ['t'] [' '] ['A'] [exGitHub]
      = FormResult.created [⟨['i'], [], ['A'], exGitHub, ['t']⟩] ['i'] := by decide

/-- C2 (amended): the handler rejects empty csm_name or empty company_name
(one shared message for both), then an empty integration selection, then a
(csm, company) pair for which `submission_exists` is true; whitespace-only
names are not rejected.  Nothing is persisted on rejection, and exactly the
inputs passing all three checks reach `append_submission`. -/
theorem C2_validation (ws : List Row) (sid t csm comp : Str) (sel : List Str) :
    (csm = [] ∨ comp = [] → handle_submit ws sid t csm comp sel = FormResult.errorBoth)
    ∧ (csm ≠ [] → comp ≠ [] → sel = [] →
        handle_submit ws sid t csm comp sel = FormResult.errorMissingIntegrations)
    ∧ (csm ≠ [] → comp ≠ [] → sel ≠ [] → submission_exists ws csm comp = true →
        handle_submit ws sid t csm comp sel = FormResult.errorDuplicate)
    ∧ (csm ≠ [] → comp ≠ [] → sel ≠ [] → submission_exists ws csm comp = false →
        handle_submit ws sid t csm comp sel
          = FormResult.created (ws ++ sel.map
              (fun n => ⟨sid, pyStrip csm, pyStrip comp, n, t⟩)) sid) := by
  refine ⟨?_, ?_, ?_, ?_⟩
  · intro h
    rcases h with h | h <;> subst h <;> simp [handle_submit]
  · intro h1 h2 h3
    subst h3
    simp [handle_submit, h1, h2]
  · intro h1 h2 h3 h4
    simp [handle_submit, h1, h2, h3, h4]
  · intro h1 h2 h3 h4
    simp [handle_submit, h1, h2, h3, h4, append_submission]

/-- C2 witness: each branch of the amended theorem exercised at concrete
inputs: empty csm, empty selection, duplicate pair, and a clean create. -/
theorem C2_validation_witness :
    handle_submit [] ['i'] ['t'] [] ['A'] [exGitHub] = FormResult.errorBoth
    ∧ handle_submit [] ['i'] ['t'] ['m'] ['A'] [] = FormResult.errorMissingIntegrations
    ∧ handle_submit exWsDup ['i'] ['t'] ['m'] ['a'] [exGitHub] = FormResult.errorDuplicate
    ∧ handle_submit [] ['i'] ['t'] ['m'] ['A'] [exGitHub]
        = FormResult.created [⟨['i'], ['m'], ['A'], exGitHub, ['t']⟩] ['i'] := by
  refine ⟨(C2_validation [] ['i'] ['t'] [] ['A'] [exGitHub]).1 (Or.inl rfl),
    (C2_validation [] ['i'] ['t'] ['m'] ['A'] []).2.1 (by decide) (by decide) rfl,
    (C2_validation exWsDup ['i'] ['t'] ['m'] ['a'] [exGitHub]).2.2.1
      (by decide) (by decide) (by decide) (by decide),
    ((C2_validation [] ['i'] ['t'] ['m'] ['A'] [exGitHub]).2.2.2
      (by decide) (by decide) (by decide) (by decide)).trans (by decide)⟩

/-- C3 counterexample: with CSMs "a" and "B" tied on both counts, the code
returns "B" before "a" (case-sensitive codepoint order on the raw names),
violating the claimed case-insensitive tie-break, under which "a" < "B". -/
theorem C3_counterexample :
    get_counts_by_csm exDfC3 = [(['B'], 1, 1), (['a'], 1, 1)]
    ∧ ¬ csmOrderCI (['B'], 1, 1) (['a'], 1, 1) :=
  ⟨by decide, by unfold csmOrderCI; decide⟩

/-- `csmRowLe` (the comparator of `get_counts_by_csm`) implies the
case-sensitive leaderboard order. -/
theorem csmRowLe_order (a b : Str × Nat × Nat) (h : csmRowLe a b = true) :
    csmOrderCS a b := by
  unfold csmRowLe at h
  unfold csmOrderCS
  by_cases e1 : a.2.2 = b.2.2
  · rw [if_pos e1] at h
    by_cases f1 : a.2.1 = b.2.1
    · rw [if_pos f1] at h
      exact Or.inr ⟨e1.symm, Or.inr ⟨f1.symm, h⟩⟩
    · rw [if_neg f1, decide_eq_true_eq] at h
      exact Or.inr ⟨e1.symm, Or.inl h⟩
  · rw [if_neg e1, decide_eq_true_eq] at h
    exact Or.inl h

/-- C3 (amended): `get_counts_by_csm` rows are ordered by
total_integration_count descending, then distinct_company_count descending,
then csm_name ascending under plain case-SENSITIVE codepoint comparison
(`sort_values` compares the raw strings; the tie-break is not
case-insensitive). -/
theorem C3_ordering (df : List Row) : (get_counts_by_csm df).Pairwise csmOrderCS := by
  unfold get_counts_by_csm
  by_cases hdf : df = []
  · subst hdf
    rw [if_pos rfl]
    exact List.Pairwise.nil
  · rw [if_neg hdf]
    exact (pairwise_sortLe csmRowLe csmRowLe_trans csmRowLe_total _).imp
      (fun hab => csmRowLe_order _ _ hab)

/-- C4: immediately after `append_submission` for (csm, company), the
duplicate check `submission_exists` returns true for any pair equal to
(csm, company) up to leading/trailing whitespace and letter case (the
integration list is non-empty, as `create`'s contract requires, so at least
one row was persisted). -/
theorem C4_exists_after_create (ws : List Row) (sid t csm comp : Str)
    (ints : List Str) (csm2 comp2 : Str) (hne : ints ≠ [])
    (h1 : normCI csm2 = normCI csm) (h2 : normCI comp2 = normCI comp) :
    submission_exists (append_submission ws sid t csm comp ints).1 csm2 comp2 = true := by
  cases ints with
  | nil => exact absurd rfl hne
  | cons i is =>
    simp only [submission_exists, append_submission, List.any_append, List.map_cons,
      List.any_cons, Bool.or_eq_true]
    refine Or.inr (Or.inl ?_)
    show (normCI (pyStrip csm) == normCI csm2 && (normCI (pyStrip comp) == normCI comp2)) = true
    rw [normCI_pyStrip, normCI_pyStrip, h1, h2]
    simp

/-- C4 witness: after recording company "acme" for csm "m", the pair
("m", " Acme ") is reported as existing. -/
theorem C4_exists_after_create_witness :
    submission_exists (append_submission [] ['i'] ['t'] ['m']
        ['a', 'c', 'm', 'e'] [exGitHub]).1 ['m'] [' ', 'A', 'c', 'm', 'e', ' '] = true :=
  C4_exists_after_create [] ['i'] ['t'] ['m'] ['a', 'c', 'm', 'e'] [exGitHub]
    ['m'] [' ', 'A', 'c', 'm', 'e', ' '] (by decide) (by decide) (by decide)

/-- C5: `delete_submission` removes exactly the rows carrying the given
submission id: no surviving row has the id, every other row survives, the
result is a sublist of the input (order and all other rows unchanged),
deleting an absent id is the identity (so a second delete of the same id is
a no-op, not an error), and the unfiltered listing of the resulting data
never contains a submission with the deleted id. -/
theorem C5_delete (ws : List Row) (sid : Str) :
    (∀ r, r ∈ delete_submission ws sid → r.submission_id ≠ sid)
    ∧ (∀ r, r ∈ ws → r.submission_id ≠ sid → r ∈ delete_submission ws sid)
    ∧ List.Sublist (delete_submission ws sid) ws
    ∧ ((∀ r, r ∈ ws → r.submission_id ≠ sid) → delete_submission ws sid = ws)
    ∧ delete_submission (delete_submission ws sid) sid = delete_submission ws sid
    ∧ (∀ s, s ∈ get_submissions (delete_submission ws sid) none none none →
        s.submission_id ≠ sid) := by
  have h1 : ∀ r, r ∈ delete_submission ws sid → r.submission_id ≠ sid := by
    intro r hr
    exact of_decide_eq_true (List.mem_filter.1 hr).2
  have h4 : ∀ l : List Row, (∀ r, r ∈ l → r.submission_id ≠ sid) →
      delete_submission l sid = l := by
    intro l h
    apply List.filter_eq_self.2
    intro r hr
    exact decide_eq_true (h r hr)
  refine ⟨h1, ?_, List.filter_sublist _, h4 ws, h4 _ h1, ?_⟩
  · intro r hr hne
    exact List.mem_filter.2 ⟨hr, decide_eq_true hne⟩
  · intro s hs
    rcases get_submissions_id_mem _ none none none s hs with ⟨r, hr, hrid⟩
    rw [← hrid]
    exact h1 r hr

/-- C5 witness: deleting id "a" from a worksheet whose only row has id "b"
keeps that row, is the identity, and the listing afterwards still shows only
id "b". -/
theorem C5_delete_witness :
    (⟨['b'], ['m'], ['c'], exGitHub, ['t']⟩ : Row) ∈ delete_submission exWsB ['a']
    ∧ delete_submission exWsB ['a'] = exWsB
    ∧ exSubB.submission_id ≠ ['a'] := by
  refine ⟨?_, ?_, ?_⟩
  · exact (C5_delete exWsB ['a']).2.1 ⟨['b'], ['m'], ['c'], exGitHub, ['t']⟩
      (by decide) (by decide)
  · exact (C5_delete exWsB ['a']).2.2.2.1 (by decide)
  · exact (C5_delete exWsB ['a']).2.2.2.2.2 exSubB (by decide)

/-- C6 counterexample: `append_submission` does not deduplicate its
integration list, so one `create` call with the name "GitHub" repeated
produces a reachable state in which the (submission_id, integration_name)
pair occurs twice. -/
theorem C6_counterexample :
    ReachableVia (fun _ => True) exDupRows ∧ ¬ (memberKeys exDupRows).Nodup := by
  constructor
  · exact ReachableVia.create [] ['i'] ['t'] ['m'] ['a'] [exGitHub, exGitHub]
      ReachableVia.empty (by simp) trivial
  · decide

/-- C6 (amended): in every state reachable through `append_submission` (with
fresh ids) and `delete_submission` in which each create call's integration
list is itself duplicate-free — as the form's multiselect guarantees — a
given integration name appears at most once per submission, i.e. the
(submission_id, integration_name) pairs are pairwise distinct.  `create`
itself does not deduplicate, so the restriction on the integration lists is
necessary (see the counterexample). -/
theorem C6_nodup_keys (ws : List Row)
    (h : ReachableVia (fun ints => ints.Nodup) ws) : (memberKeys ws).Nodup := by
  induction h with
  | empty => exact List.Pairwise.nil
  | create ws sid t csm comp ints hr hfresh hP ih =>
    unfold memberKeys append_submission
    rw [List.map_append, List.map_map]
    have h2 : ((fun r : Row => (r.submission_id, r.integration_name)) ∘
        (fun name => (⟨sid, pyStrip csm, pyStrip comp, name, t⟩ : Row)))
        = fun name => (sid, name) := funext (fun _ => rfl)
    rw [h2]
    refine List.Nodup.append ih (List.Nodup.map (fun a b hab => by simpa using hab) hP) ?_
    intro p hp1 hp2
    rcases List.mem_map.1 hp1 with ⟨r, hr2, rfl⟩
    rcases List.mem_map.1 hp2 with ⟨n, _, heq⟩
    exact hfresh r hr2 (congrArg Prod.fst heq).symm
  | del ws sid hr ih =>
    unfold memberKeys delete_submission
    exact ih.sublist ((List.filter_sublist _).map _)

/-- C6 witness: the amended invariant evaluated on the state reached by one
duplicate-free create. -/
theorem C6_nodup_keys_witness : (memberKeys exOneRow).Nodup :=
  C6_nodup_keys exOneRow
    (ReachableVia.create [] ['i'] ['t'] ['m'] ['a'] [exGitHub]
      ReachableVia.empty (by simp) (by decide))

/-- C7: `get_counts_by_csm` has exactly one row per csm_name value occurring
in the data — a CSM with no submission is absent, never a zero-count row —
and that row carries the number of distinct company_name values in the CSM's
rows (`nunique`) and the CSM's total number of membership rows (`size`). -/
theorem C7_counts_by_csm (df : List Row) :
    (∀ (c : Str) (comps ints : Nat),
      ((c, comps, ints) ∈ get_counts_by_csm df
        ↔ (∃ r, r ∈ df ∧ r.csm_name = c)
          ∧ comps = (dedupFirst ((df.filter (fun r => r.csm_name == c)).map
              (fun r => r.company_name))).length
          ∧ ints = (df.filter (fun r => r.csm_name == c)).length))
    ∧ ((get_counts_by_csm df).map (fun row => row.1)).Nodup := by
  constructor
  · intro c comps ints
    unfold get_counts_by_csm
    by_cases hdf : df = []
    · subst hdf
      rw [if_pos rfl]
      simp
    · rw [if_neg hdf]
      rw [(sortLe_perm csmRowLe _).mem_iff, List.mem_map]
      constructor
      · rintro ⟨c2, hc2, heq⟩
        rw [Prod.mk.injEq, Prod.mk.injEq] at heq
        rcases heq with ⟨h1, h2, h3⟩
        subst h1
        rcases List.mem_map.1 ((mem_dedupFirst _ _).1 hc2) with ⟨r, hr, hrc⟩
        exact ⟨⟨r, hr, hrc⟩, h2.symm, h3.symm⟩
      · rintro ⟨⟨r, hr, hrc⟩, hcomps, hints⟩
        refine ⟨c, (mem_dedupFirst _ _).2 (List.mem_map.2 ⟨r, hr, hrc⟩), ?_⟩
        rw [hcomps, hints]
  · unfold get_counts_by_csm
    by_cases hdf : df = []
    · subst hdf
      rw [if_pos rfl]
      exact List.Pairwise.nil
    · rw [if_neg hdf]
      refine ((sortLe_perm csmRowLe _).map (fun row => row.1)).nodup_iff.2 ?_
      rw [List.map_map]
      have h2 : ((fun (row : Str × Nat × Nat) => row.1) ∘ (fun c =>
          (c, (dedupFirst ((df.filter (fun r => r.csm_name == c)).map
              (fun r => r.company_name))).length,
           (df.filter (fun r => r.csm_name == c)).length))) = fun c => c :=
        funext (fun _ => rfl)
      rw [h2, List.map_id']
      exact nodup_dedupFirst _

/-- C8: the per-integration counts of `get_counts_by_service` sum to the
total number of membership rows (every sheet row is one
(submission × integration) membership record), and the returned pairs are
ordered by count descending. -/
theorem C8_counts_by_service (df : List Row) :
    ((get_counts_by_service df).map (fun p => p.2)).sum = df.length
    ∧ (get_counts_by_service df).Pairwise (fun a b => b.2 ≤ a.2) := by
  constructor
  · unfold get_counts_by_service
    by_cases hdf : df = []
    · subst hdf
      rw [if_pos rfl]
      rfl
    · rw [if_neg hdf]
      rw [((sortLe_perm svcLe _).map (fun p : Str × Nat => p.2)).sum_eq]
      rw [List.map_map]
      have h2 : ((fun p : Str × Nat => p.2) ∘ (fun k =>
          (k, (df.map (fun r => r.integration_name)).count k)))
          = fun k => (df.map (fun r => r.integration_name)).count k :=
        funext (fun _ => rfl)
      rw [h2]
      rw [sum_count_dedupFirst (df.map (fun r => r.integration_name))]
      rw [List.length_map]
  · unfold get_counts_by_service
    by_cases hdf : df = []
    · subst hdf
      rw [if_pos rfl]
      exact List.Pairwise.nil
    · rw [if_neg hdf]
      exact (pairwise_sortLe svcLe svcLe_trans svcLe_total _).imp
        (fun hab => of_decide_eq_true hab)

/-- C9: for every dataset and filter combination the listing is ordered by
`created_at` descending (string comparison of the stored timestamps, most
recent first), and every returned submission's integration list is sorted in
case-insensitive lexicographic order. -/
theorem C9_ordering (df : List Row) (fc fco : Option Str) (fi : Option (List Str)) :
    (get_submissions df fc fco fi).Pairwise
      (fun a b => lexLe b.created_at a.created_at = true)
    ∧ ∀ s, s ∈ get_submissions df fc fco fi →
        s.integrations.Pairwise (fun x y => ciLe x y = true) := by
  constructor
  · exact get_submissions_sorted df fc fco fi
  · intro s h
    rw [get_submissions_integrations df fc fco fi s h]
    exact groupIntegrations_sorted _

/-- C9 witness: the ordering theorem instantiated on a concrete two-submission
dataset, with the integration-list part applied to the listed submission
"s1". -/
theorem C9_ordering_witness :
    (get_submissions exDfC9 none none none).Pairwise
      (fun a b => lexLe b.created_at a.created_at = true)
    ∧ exSubC9.integrations.Pairwise (fun x y => ciLe x y = true) :=
  ⟨(C9_ordering exDfC9 none none none).1,
   (C9_ordering exDfC9 none none none).2 exSubC9 (by decide)⟩

/-- C10: `append_submission` with an empty integration list is total (no
error), returns the generated id, and persists nothing: the worksheet is
unchanged, so no submission with the fresh id appears in any listing of it. -/
theorem C10_empty_create (ws : List Row) (sid t csm comp : Str)
    (hfresh : ∀ r, r ∈ ws → r.submission_id ≠ sid) :
    (append_submission ws sid t csm comp []).1 = ws
    ∧ (append_submission ws sid t csm comp []).2 = sid
    ∧ ∀ (fc fco : Option Str) (fi : Option (List Str)) (s : Submission),
        s ∈ get_submissions ws fc fco fi → s.submission_id ≠ sid := by
  refine ⟨by simp [append_submission], rfl, ?_⟩
  intro fc fco fi s hs
  rcases get_submissions_id_mem ws fc fco fi s hs with ⟨r, hr, hrid⟩
  rw [← hrid]
  exact hfresh r hr

/-- C10 witness: an empty-list create against a one-row worksheet leaves it
unchanged, and the listing still shows only the old submission "b", not the
fresh id "n". -/
theorem C10_empty_create_witness :
    (append_submission exWsB ['n'] ['t'] ['m'] ['a'] []).1 = exWsB
    ∧ exSubB.submission_id ≠ ['n'] :=
  ⟨(C10_empty_create exWsB ['n'] ['t'] ['m'] ['a'] (by decide)).1,
   (C10_empty_create exWsB ['n'] ['t'] ['m'] ['a'] (by decide)).2.2
     none none none exSubB (by decide)⟩
